import Mathlib

set_option linter.unusedVariables false
set_option maxRecDepth 4000

/-! Verification development for the s3insqlite S3-over-SQLite server.
The core of src is modelled shallowly: strings become `List Char`, the
per-bucket SQLite table becomes an explicit list of rows, and the external
crates (chrono time formatting, md5+hex digesting, the SQLite LIKE matcher)
are modelled as explicit parameters or executable stand-ins.  Each handler
additionally reports the list of storage effects it performed, so that
fail-fast claims can be stated. -/

/-- Character test of `sanitize_bucket_name` (src/src/utils/bucket.rs):
Rust `c.is_ascii_alphanumeric() || c == '_' || c == '-'`. -/
def isBucketChar (c : Char) : Bool :=
  (decide ('a' ≤ c) && decide (c ≤ 'z')) ||
  (decide ('A' ≤ c) && decide (c ≤ 'Z')) ||
  (decide ('0' ≤ c) && decide (c ≤ '9')) || c == '_' || c == '-'

/-- Dash rewriting of `bucket.replace('-', "_")` applied characterwise. -/
def dashToUnderscore (c : Char) : Char := if c = '-' then '_' else c

/-- Model of `sanitize_bucket_name` (src/src/utils/bucket.rs lines 10-22):
reject the empty name or any character outside `[A-Za-z0-9_-]`, rewrite
dashes to underscores, and prepend the fixed namespace `bucket_`. -/
def sanitize_bucket_name (bucket : List Char) : Option (List Char) :=
  if bucket.isEmpty || !(bucket.all isBucketChar) then none
  else some ("bucket_".data ++ bucket.map dashToUnderscore)

/-- Model of Rust `str::strip_prefix`: `stripPre p k` is the rest of `k`
after the leading occurrence of `p`, if `k` starts with `p`. -/
def stripPre : List Char → List Char → Option (List Char)
  | [], k => some k
  | _ :: _, [] => none
  | p :: ps, c :: cs => if p = c then stripPre ps cs else none

/-- Model of Rust `str::find(char)`: index of the first occurrence of `d`.
(The source works with byte indices; all delimiters exercised by the spec
are single-byte ASCII, for which the two notions agree.) -/
def str_find (d : Char) : List Char → Option Nat
  | [] => none
  | c :: cs => if c = d then some 0 else (str_find d cs).map (· + 1)

/-- Set-semantics insertion, modelling `HashSet::insert`: the accumulated
list stays duplicate-free.  (Rust iterates the final set in an unspecified
order; the model fixes first-insertion order, which is immaterial to every
claim, all of which treat common prefixes as a set.) -/
def insertSet (s : List (List Char)) (x : List Char) : List (List Char) :=
  if x ∈ s then s else s ++ [x]

/-- Model of the `S3Object` struct (src/src/models/s3.rs).  The
`last_modified` field carries the chrono-formatted timestamp text (the
chrono crate is external to this repository and is modelled as opaque
formatted text). -/
structure S3Object where
  key : List Char
  size : Nat
  last_modified : List Char
  etag : List Char
  storage_class : List Char
deriving DecidableEq

/-- Model of one entry of `QueryBucketResult`: the
`(key, size, last_modified, md5)` tuple produced by
`query_bucket_objects`. -/
structure KeyRow where
  key : List Char
  size : Nat
  last_modified : List Char
  md5 : Option (List Char)
deriving DecidableEq

/-- Model of the `ListBucketResult` struct (src/src/models/s3.rs).  The
field `pfx` models the struct's request-echo field named after the request
parameter; `common_prefixes` inlines the one-field `CommonPrefix` wrapper
as a bare string. -/
structure ListBucketResult where
  name : List Char
  pfx : List Char
  delimiter : Option Char
  max_keys : Int
  is_truncated : Bool
  encoding_type : Option (List Char)
  continuation_token : Option (List Char)
  next_continuation_token : Option (List Char)
  start_after : Option (List Char)
  contents : List S3Object
  common_prefixes : List (List Char)
deriving DecidableEq

/-- Model of `ListBucketResult::new`: `max_keys` defaults to `i32::MAX`. -/
def ListBucketResult.new (bucket p : List Char) (delimiter : Option Char) :
    ListBucketResult where
  name := bucket
  pfx := p
  delimiter := delimiter
  max_keys := 2147483647
  is_truncated := false
  encoding_type := none
  continuation_token := none
  next_continuation_token := none
  start_after := none
  contents := []
  common_prefixes := []

/-- Model of `ListBucketResult::set_max_keys`. -/
def ListBucketResult.set_max_keys (r : ListBucketResult) (m : Int) :
    ListBucketResult := { r with max_keys := m }

/-- Object construction done by `ListBucketResult::add_content`: the ETag
is the quoted md5 hash, or quoted zeros when the hash column was absent. -/
def mkObject (k : KeyRow) : S3Object where
  key := k.key
  size := k.size
  last_modified := k.last_modified
  etag := match k.md5 with
    | some h => '"' :: (h ++ ['"'])
    | none => "\"00000000000000000000000000000000\"".data
  storage_class := "STANDARD".data

/-- Delimiter-grouping loop of `ListBucketResult::process_keys` (the
`for (key, ...) in keys` loop of the `Some(delimiter)` branch): rows whose
stripped suffix contains the delimiter feed the common-prefixes set `seen`;
rows without it become content entries in input order; rows not starting
with the request echo are skipped. -/
def groupRows (p : List Char) (d : Char) :
    List KeyRow → List (List Char) → List S3Object × List (List Char)
  | [], seen => ([], seen)
  | row :: rest, seen =>
    match stripPre p row.key with
    | some suffix =>
      match str_find d suffix with
      | some pos => groupRows p d rest (insertSet seen (p ++ suffix.take (pos + 1)))
      | none =>
        let r := groupRows p d rest seen
        (mkObject row :: r.1, r.2)
    | none => groupRows p d rest seen

/-- Model of `ListBucketResult::process_keys` (src/src/models/s3.rs lines
156-191): without a delimiter every fetched row whose key starts with the
request echo is appended to `contents`; with a delimiter the grouping loop
runs and the discovered common prefixes are appended afterwards. -/
def ListBucketResult.process_keys (r : ListBucketResult) (keys : List KeyRow) :
    ListBucketResult :=
  match r.delimiter with
  | none =>
    { r with contents :=
        r.contents ++ (keys.filter (fun k => r.pfx.isPrefixOf k.key)).map mkObject }
  | some d =>
    let g := groupRows r.pfx d keys []
    { r with contents := r.contents ++ g.1,
             common_prefixes := r.common_prefixes ++ g.2 }

/-- Total characterwise at-most comparison of keys: the ascending ordering
of Rust `str` comparison (bytewise, which agrees with the characterwise
comparison on the ASCII keys exercised by the protocol). -/
def lexLe : List Char → List Char → Bool
  | [], _ => true
  | _ :: _, [] => false
  | a :: as, b :: bs => decide (a < b) || (a == b && lexLe as bs)

/-- Propositional form of `lexLe`, used for sortedness statements. -/
def LexLeP (a b : List Char) : Prop := lexLe a b = true

instance : DecidableRel LexLeP := fun a b =>
  inferInstanceAs (Decidable (lexLe a b = true))

/-- ASCII-only lowercasing of the default SQLite LIKE collation. -/
def asciiLower (c : Char) : Char :=
  if decide ('A' ≤ c) && decide (c ≤ 'Z') then Char.ofNat (c.toNat + 32) else c

/-- Fuel-indexed worker for the LIKE matcher: every step consumes at least
one character of pattern or text, so any fuel above their combined length
is enough. -/
def likeMatchF : Nat → List Char → List Char → Bool
  | 0, _, _ => false
  | _ + 1, [], t => t.isEmpty
  | fuel + 1, q :: qs, t =>
    if q = '%' then
      likeMatchF fuel qs t ||
        (match t with
         | [] => false
         | _ :: ts => likeMatchF fuel (q :: qs) ts)
    else
      match t with
      | [] => false
      | c :: ts => (q == '_' || asciiLower q == asciiLower c) && likeMatchF fuel qs ts

/-- Model of the external SQLite `LIKE` operator (default case-insensitive
ASCII collation, `%` and `_` wildcards), used by the storage queries; the
pattern is built by the source as the raw request echo followed by `%`,
with no escaping of wildcard characters already in the echo. -/
def likeMatch (pat text : List Char) : Bool :=
  likeMatchF (pat.length + text.length + 1) pat text

/-- Row of a per-bucket table: columns `key`, `data`, `last_modified`
(unix seconds), `md5` (hex digest text).  The list order models SQLite
rowid (insertion) order, which is the order an ORDER-BY-less scan
returns. -/
structure DbRow where
  key : List Char
  blob : List Nat
  last_modified : Int
  md5 : List Char
deriving DecidableEq

/-- Storage effects a handler performs, in program order. -/
inductive Effect where
  | acquireConn
  | execStmt
deriving DecidableEq

/-- Handler responses: the success shapes of PUT (200 empty), GET (200 with
the payload), DELETE (204), and the XML error shape with its status. -/
inductive HResp where
  | okPut
  | okGet (body : List Nat)
  | okDeleted
  | errResp (status : Nat) (code : List Char)
deriving DecidableEq

/-- Model of `query_bucket_objects` (src/src/utils/bucket.rs lines 54-114):
derive the table identifier (InvalidBucketName on failure), then
`SELECT key, length(data), last_modified, md5 ... WHERE key LIKE ?1` with
the pattern `{echo}%`, the echo passed unescaped.  There is no ORDER BY:
rows come back in table order.  `fmtTime` models the external chrono
rendering of the stored timestamp. -/
def query_bucket_objects (fmtTime : Int → List Char) (table : List DbRow)
    (bucket p : List Char) : Except (Nat × List Char) (List KeyRow) :=
  match sanitize_bucket_name bucket with
  | none => Except.error (400, "InvalidBucketName".data)
  | some _ => Except.ok
      ((table.filter (fun r => likeMatch (p ++ ['%']) r.key)).map
        (fun r => ⟨r.key, r.blob.length, fmtTime r.last_modified, some r.md5⟩))

/-- Response of the listing handler: a result record (serialized by the
transport with `to_xml`) or an XML error with its status. -/
inductive ListResp where
  | okL (r : ListBucketResult)
  | errL (status : Nat) (code : List Char)
deriving DecidableEq

/-- Model of the v1 `list_objects` handler (src/src/handlers/bucket.rs
lines 89-146): allow-list validation (403), parameter extraction (the
`marker` parameter is read into an unused binding, exactly as in the
source), pooled-connection acquisition, the shared query, then
`set_max_keys`, `is_truncated = false` and `process_keys`. -/
def list_objects (fmtTime : Int → List Char) (allowed : List (List Char))
    (bucket p : List Char) (delimiter : Option Char) (_marker : List Char)
    (max_keys : Int) (table : List DbRow) : ListResp :=
  if bucket ∈ allowed then
    match query_bucket_objects fmtTime table bucket p with
    | Except.error e => ListResp.errL e.1 e.2
    | Except.ok rows =>
      let r0 := (ListBucketResult.new bucket p delimiter).set_max_keys max_keys
      ListResp.okL (ListBucketResult.process_keys { r0 with is_truncated := false } rows)
  else ListResp.errL 403 "AccessDenied".data

/-- Content entries of a listing response. -/
def contentsOf : ListResp → List S3Object
  | ListResp.okL r => r.contents
  | ListResp.errL _ _ => []

/-- Common-prefix entries of a listing response. -/
def cprefixesOf : ListResp → List (List Char)
  | ListResp.okL r => r.common_prefixes
  | ListResp.errL _ _ => []

/-- Truncation flag of a listing response. -/
def truncatedOf : ListResp → Bool
  | ListResp.okL r => r.is_truncated
  | ListResp.errL _ _ => false

/-- Upsert of the PUT statement `INSERT ... ON CONFLICT(key) DO UPDATE SET
data=excluded.data, md5=excluded.md5`: an existing row keeps its table
position and receives the new payload, hash and (through the update
trigger installed by `ensure_bucket_table`) a refreshed timestamp; a new
key appends a fresh row. -/
def upsert (table : List DbRow) (key : List Char) (blob : List Nat)
    (h : List Char) (now : Int) : List DbRow :=
  if table.any (fun r => r.key == key) then
    table.map (fun r => if r.key == key then ⟨key, blob, now, h⟩ else r)
  else table ++ [⟨key, blob, now, h⟩]

/-- Exact-key lookup `WHERE key = ?1` over the table. -/
def lookupRow (table : List DbRow) (key : List Char) : Option DbRow :=
  table.find? (fun r => r.key == key)

/-- Model of `upload_object` (src/src/handlers/object.rs lines 17-88):
allow-list validation first (403, no storage effect), then
pooled-connection acquisition, then sanitization (400), then the md5
computation and the upsert.  `md5hex` models the external `md5` and `hex`
crates composed: the hex digest of a byte payload. -/
def upload_object (md5hex : List Nat → List Char) (allowed : List (List Char))
    (bucket key : List Char) (body : List Nat) (table : List DbRow)
    (now : Int) : List Effect × HResp × List DbRow :=
  if bucket ∈ allowed then
    match sanitize_bucket_name bucket with
    | some _ =>
      ([Effect.acquireConn, Effect.execStmt], HResp.okPut,
        upsert table key body (md5hex body) now)
    | none =>
      ([Effect.acquireConn], HResp.errResp 400 "InvalidBucketName".data, table)
  else ([], HResp.errResp 403 "AccessDenied".data, table)

/-- Model of `download_object` (src/src/handlers/object.rs lines 92-152):
exact-key SELECT; an absent key is NoSuchKey 404. -/
def download_object (allowed : List (List Char)) (bucket key : List Char)
    (table : List DbRow) : List Effect × HResp :=
  if bucket ∈ allowed then
    match sanitize_bucket_name bucket with
    | some _ =>
      match lookupRow table key with
      | some r => ([Effect.acquireConn, Effect.execStmt], HResp.okGet r.blob)
      | none => ([Effect.acquireConn, Effect.execStmt],
                 HResp.errResp 404 "NoSuchKey".data)
    | none => ([Effect.acquireConn], HResp.errResp 400 "InvalidBucketName".data)
  else ([], HResp.errResp 403 "AccessDenied".data)

/-- Model of `delete_object` (src/src/handlers/object.rs lines 156-207):
the DELETE statement executes and the handler answers 204 regardless of
how many rows were affected. -/
def delete_object (allowed : List (List Char)) (bucket key : List Char)
    (table : List DbRow) : List Effect × HResp × List DbRow :=
  if bucket ∈ allowed then
    match sanitize_bucket_name bucket with
    | some _ =>
      ([Effect.acquireConn, Effect.execStmt], HResp.okDeleted,
        table.filter (fun r => !(r.key == key)))
    | none =>
      ([Effect.acquireConn], HResp.errResp 400 "InvalidBucketName".data, table)
  else ([], HResp.errResp 403 "AccessDenied".data, table)

/-- Sanitizer of the older actix iteration (src/src/main.rs lines 51-61):
same character validation, no dash rewriting. -/
def MainRs.sanitize_bucket_name (bucket : List Char) : Option (List Char) :=
  if bucket.isEmpty || !(bucket.all isBucketChar) then none
  else some ("bucket_".data ++ bucket)

/-- Model of `delete_object` of the older actix iteration (src/src/main.rs
lines 226-288): when the DELETE statement reports zero affected rows this
handler answers NoSuchKey 404 instead of success. -/
def MainRs.delete_object (allowed : List (List Char)) (bucket key : List Char)
    (table : List DbRow) : HResp × List DbRow :=
  if bucket ∈ allowed then
    match MainRs.sanitize_bucket_name bucket with
    | some _ =>
      if table.any (fun r => r.key == key) then
        (HResp.okDeleted, table.filter (fun r => !(r.key == key)))
      else (HResp.errResp 404 "NoSuchKey".data, table)
    | none => (HResp.errResp 400 "InvalidBucketName".data, table)
  else (HResp.errResp 403 "AccessDenied".data, table)

/-- Serialization of one `<Contents>` element, as in `to_xml`. -/
def objectXml (o : S3Object) : List Char :=
  "<Contents>".data ++
  "<Key>".data ++ o.key ++ "</Key>".data ++
  "<LastModified>".data ++ o.last_modified ++ "</LastModified>".data ++
  "<ETag>".data ++ o.etag ++ "</ETag>".data ++
  "<Size>".data ++ (Nat.repr o.size).data ++ "</Size>".data ++
  "<StorageClass>".data ++ o.storage_class ++ "</StorageClass>".data ++
  "</Contents>".data

/-- Serialization of one `<CommonPrefixes>` element. -/
def cpXml (cp : List Char) : List Char :=
  "<CommonPrefixes>".data ++ "<Prefix>".data ++ cp ++ "</Prefix>".data ++
  "</CommonPrefixes>".data

/-- Model of `ListBucketResult::to_xml` (src/src/models/s3.rs lines
51-114): the exact element order of the source, every text node emitted
verbatim (the source performs no escaping of XML reserved characters). -/
def ListBucketResult.to_xml (r : ListBucketResult) : List Char :=
  "<?xml version=\"1.0\" encoding=\"UTF-8\"?>\n<ListBucketResult xmlns=\"http://s3.amazonaws.com/doc/2006-03-01/\">".data ++
  "<Name>".data ++ r.name ++ "</Name>".data ++
  "<Prefix>".data ++ r.pfx ++ "</Prefix>".data ++
  (match r.delimiter with
   | some d => "<Delimiter>".data ++ [d] ++ "</Delimiter>".data
   | none => []) ++
  (match r.encoding_type with
   | some e => "<EncodingType>".data ++ e ++ "</EncodingType>".data
   | none => []) ++
  (match r.continuation_token with
   | some t => "<ContinuationToken>".data ++ t ++ "</ContinuationToken>".data
   | none => []) ++
  "<KeyCount>".data ++ (Nat.repr r.contents.length).data ++ "</KeyCount>".data ++
  "<MaxKeys>".data ++ (Int.repr r.max_keys).data ++ "</MaxKeys>".data ++
  "<IsTruncated>".data ++
    (if r.is_truncated then "true".data else "false".data) ++
    "</IsTruncated>".data ++
  (match r.next_continuation_token with
   | some t =>
      "<NextContinuationToken>".data ++ t ++ "</NextContinuationToken>".data
   | none => []) ++
  (match r.start_after with
   | some s => "<StartAfter>".data ++ s ++ "</StartAfter>".data
   | none => []) ++
  r.contents.foldl (fun acc o => acc ++ objectXml o) [] ++
  r.common_prefixes.foldl (fun acc c => acc ++ cpXml c) [] ++
  "</ListBucketResult>".data

/-- Substring test: true when the first list occurs contiguously inside
the second. -/
def hasSubstr : List Char → List Char → Bool
  | needle, [] => needle.isEmpty
  | needle, c :: rest => needle.isPrefixOf (c :: rest) || hasSubstr needle rest

/-- Dash-free names are untouched by the dash rewriting. -/
theorem map_dashToUnderscore_of_not_mem {b : List Char} (h : '-' ∉ b) :
    b.map dashToUnderscore = b := by
  induction b with
  | nil => rfl
  | cons c cs ih =>
    have hc : c ≠ '-' := fun hh => h (hh ▸ List.mem_cons_self c cs)
    have hcs : '-' ∉ cs := fun hh => h (List.mem_cons_of_mem c hh)
    simp [dashToUnderscore, hc, ih hcs]

/-- Claim C1 counterexample: the two distinct accepted bucket names `-` and
`_` are both mapped to the identifier `bucket__`, so the mapping of
`sanitize_bucket_name` is not injective on accepted names. -/
theorem c1_dash_underscore_collision :
    sanitize_bucket_name ['-'] = sanitize_bucket_name ['_'] ∧
    sanitize_bucket_name ['-'] ≠ none ∧
    (['-'] : List Char) ≠ ['_'] := by decide

/-- Claim C1 (amended): the bucket-name-to-storage-identifier mapping is
injective on accepted names that contain no dash: if two dash-free names
are both accepted by `sanitize_bucket_name` and map to the same identifier,
they are equal.  (Names are only identified up to rewriting `-` to `_`.) -/
theorem c1_injective_on_dashfree (b₁ b₂ t : List Char)
    (h₁ : sanitize_bucket_name b₁ = some t)
    (h₂ : sanitize_bucket_name b₂ = some t)
    (hd₁ : '-' ∉ b₁) (hd₂ : '-' ∉ b₂) : b₁ = b₂ := by
  unfold sanitize_bucket_name at h₁ h₂
  split at h₁
  · exact absurd h₁ (by simp)
  · split at h₂
    · exact absurd h₂ (by simp)
    · have e₁ := Option.some.inj h₁
      have e₂ := Option.some.inj h₂
      have : "bucket_".data ++ b₁.map dashToUnderscore
           = "bucket_".data ++ b₂.map dashToUnderscore := by rw [e₁, e₂]
      have hmaps := List.append_cancel_left this
      rwa [map_dashToUnderscore_of_not_mem hd₁,
           map_dashToUnderscore_of_not_mem hd₂] at hmaps

/-- Witness for C1 amended theorem at the concrete accepted name `a`. -/
theorem c1_injective_on_dashfree_witness : (['a'] : List Char) = ['a'] :=
  c1_injective_on_dashfree ['a'] ['a'] "bucket_a".data
    (by decide) (by decide) (by decide) (by decide)

/-- Inserted elements are members of the set. -/
theorem insertSet_mem_self (s : List (List Char)) (x : List Char) :
    x ∈ insertSet s x := by
  unfold insertSet
  split
  · assumption
  · simp

/-- Insertion preserves the existing members. -/
theorem insertSet_mem_mono {s : List (List Char)} {y : List Char}
    (h : y ∈ s) (x : List Char) : y ∈ insertSet s x := by
  unfold insertSet
  split
  · exact h
  · exact List.mem_append_left _ h

/-- Insertion keeps the accumulated set duplicate-free. -/
theorem insertSet_nodup {s : List (List Char)} (h : s.Nodup)
    (x : List Char) : (insertSet s x).Nodup := by
  unfold insertSet
  split
  · exact h
  · next hx =>
    refine List.Nodup.append h (List.nodup_singleton x) ?_
    intro a ha hb
    exact hx ((List.mem_singleton.mp hb) ▸ ha)

/-- Every member of the set after an insertion is an old member or the
inserted element. -/
theorem insertSet_mem_cases {s : List (List Char)} {x z : List Char}
    (h : z ∈ insertSet s x) : z ∈ s ∨ z = x := by
  unfold insertSet at h
  split at h
  · exact Or.inl h
  · rcases List.mem_append.mp h with h' | h'
    · exact Or.inl h'
    · exact Or.inr (List.mem_singleton.mp h')

/-- Members of the incoming set survive the grouping loop. -/
theorem groupRows_seen_mono (p : List Char) (d : Char) (rows : List KeyRow) :
    ∀ seen, ∀ y ∈ seen, y ∈ (groupRows p d rows seen).2 := by
  induction rows with
  | nil => intro seen y hy; simpa [groupRows] using hy
  | cons row rest ih =>
    intro seen y hy
    cases hsp : stripPre p row.key with
    | none =>
      simp only [groupRows, hsp]
      exact ih seen y hy
    | some suffix =>
      cases hf : str_find d suffix with
      | some pos =>
        simp only [groupRows, hsp, hf]
        exact ih _ y (insertSet_mem_mono hy _)
      | none =>
        simp only [groupRows, hsp, hf]
        exact ih seen y hy

/-- Grouping-membership half of claim C3: a fetched row whose stripped
suffix contains the delimiter contributes its grouping string to the
common-prefixes set produced by the loop. -/
theorem groupRows_mem_of_row (p : List Char) (d : Char) {rows : List KeyRow}
    {row : KeyRow} (hmem : row ∈ rows) {s : List Char} {i : Nat}
    (hsp : stripPre p row.key = some s) (hf : str_find d s = some i) :
    ∀ seen, (p ++ s.take (i + 1)) ∈ (groupRows p d rows seen).2 := by
  induction rows with
  | nil => cases hmem
  | cons row' rest ih =>
    intro seen
    rcases List.mem_cons.mp hmem with heq | hm
    · subst heq
      simp only [groupRows, hsp, hf]
      exact groupRows_seen_mono p d rest _ _ (insertSet_mem_self _ _)
    · cases hsp' : stripPre p row'.key with
      | none =>
        simp only [groupRows, hsp']
        exact ih hm seen
      | some suffix' =>
        cases hf' : str_find d suffix' with
        | some pos =>
          simp only [groupRows, hsp', hf']
          exact ih hm _
        | none =>
          simp only [groupRows, hsp', hf']
          exact ih hm seen

/-- Duplicate-freedom of the common-prefixes set built by the loop. -/
theorem groupRows_nodup (p : List Char) (d : Char) (rows : List KeyRow) :
    ∀ seen, seen.Nodup → ((groupRows p d rows seen).2).Nodup := by
  induction rows with
  | nil => intro seen h; simpa [groupRows] using h
  | cons row rest ih =>
    intro seen h
    cases hsp : stripPre p row.key with
    | none =>
      simp only [groupRows, hsp]
      exact ih seen h
    | some suffix =>
      cases hf : str_find d suffix with
      | some pos =>
        simp only [groupRows, hsp, hf]
        exact ih _ (insertSet_nodup h _)
      | none =>
        simp only [groupRows, hsp, hf]
        exact ih seen h

/-- Keys of content entries produced by the grouping loop: each comes from
a row whose stripped suffix contains no delimiter. -/
theorem groupRows_contents_keys (p : List Char) (d : Char)
    {rows : List KeyRow} {k : List Char} :
    ∀ seen, k ∈ ((groupRows p d rows seen).1).map S3Object.key →
    ∃ s, stripPre p k = some s ∧ str_find d s = none := by
  induction rows with
  | nil => intro seen h; simp [groupRows] at h
  | cons row rest ih =>
    intro seen h
    cases hsp : stripPre p row.key with
    | none =>
      simp only [groupRows, hsp] at h
      exact ih seen h
    | some suffix =>
      cases hf : str_find d suffix with
      | some pos =>
        simp only [groupRows, hsp, hf] at h
        exact ih _ h
      | none =>
        simp only [groupRows, hsp, hf, List.map_cons, List.mem_cons] at h
        rcases h with h | h
        · refine ⟨suffix, ?_, hf⟩
          have hk : (mkObject row).key = row.key := rfl
          rw [h, hk]
          exact hsp
        · exact ih seen h

/-- Stripping characterizes concatenation. -/
theorem stripPre_eq_append {p k s : List Char}
    (h : stripPre p k = some s) : k = p ++ s := by
  induction p generalizing k with
  | nil =>
    simp only [stripPre, Option.some.injEq] at h
    simp [h]
  | cons c cs ih =>
    cases k with
    | nil => simp [stripPre] at h
    | cons c' k' =>
      simp only [stripPre] at h
      split at h
      · next heq => simp [heq, ih h]
      · cases h

/-- Boolean self-application of the starts-with test. -/
theorem isPrefixOf_append_self (p s : List Char) :
    p.isPrefixOf (p ++ s) = true := by
  induction p with
  | nil => simp [List.isPrefixOf]
  | cons c cs ih => simp [List.isPrefixOf, ih]

/-- Everything in the common-prefixes set built by the loop starts with
the request echo, provided the incoming set does. -/
theorem groupRows_seen_pre (p : List Char) (d : Char) (rows : List KeyRow) :
    ∀ seen, (∀ w ∈ seen, p.isPrefixOf w = true) →
    ∀ z ∈ (groupRows p d rows seen).2, p.isPrefixOf z = true := by
  induction rows with
  | nil => intro seen h z hz; exact h z (by simpa [groupRows] using hz)
  | cons row rest ih =>
    intro seen h z hz
    cases hsp : stripPre p row.key with
    | none =>
      simp only [groupRows, hsp] at hz
      exact ih seen h z hz
    | some suffix =>
      cases hf : str_find d suffix with
      | some pos =>
        simp only [groupRows, hsp, hf] at hz
        refine ih _ ?_ z hz
        intro w hw
        rcases insertSet_mem_cases hw with hw' | hw'
        · exact h w hw'
        · rw [hw']
          exact isPrefixOf_append_self _ _
      | none =>
        simp only [groupRows, hsp, hf] at hz
        exact ih seen h z hz

/-- Content keys produced by the loop form a sublist of the fetched keys,
in fetched order. -/
theorem groupRows_contents_sublist (p : List Char) (d : Char)
    (rows : List KeyRow) :
    ∀ seen, List.Sublist (((groupRows p d rows seen).1).map S3Object.key)
      (rows.map KeyRow.key) := by
  induction rows with
  | nil => intro seen; simp [groupRows]
  | cons row rest ih =>
    intro seen
    cases hsp : stripPre p row.key with
    | none =>
      simp only [groupRows, hsp, List.map_cons]
      exact (ih seen).cons _
    | some suffix =>
      cases hf : str_find d suffix with
      | some pos =>
        simp only [groupRows, hsp, hf, List.map_cons]
        exact (ih _).cons _
      | none =>
        simp only [groupRows, hsp, hf, List.map_cons]
        have hk : (mkObject row).key = row.key := rfl
        simpa [hk] using (ih seen).cons₂ row.key

/-- Object construction preserves the key list. -/
theorem map_key_mkObject (l : List KeyRow) :
    (l.map mkObject).map S3Object.key = l.map KeyRow.key := by
  induction l with
  | nil => rfl
  | cons k rest ih => simp [mkObject, ih]

/-- Prefix preservation of `process_keys` over any base record whose
existing entries already satisfy it: every content key and every common
prefix of the processed record starts with the request echo, however the
fetched rows were produced. -/
theorem process_keys_pre (r : ListBucketResult) (rows : List KeyRow)
    (hc : ∀ o ∈ r.contents, r.pfx.isPrefixOf o.key = true)
    (hcp : ∀ cp ∈ r.common_prefixes, r.pfx.isPrefixOf cp = true) :
    (∀ o ∈ (r.process_keys rows).contents, r.pfx.isPrefixOf o.key = true) ∧
    (∀ cp ∈ (r.process_keys rows).common_prefixes,
      r.pfx.isPrefixOf cp = true) := by
  cases hd : r.delimiter with
  | none =>
    simp only [ListBucketResult.process_keys, hd]
    refine ⟨?_, hcp⟩
    intro o ho
    rcases List.mem_append.mp ho with h | h
    · exact hc o h
    · rcases List.mem_map.mp h with ⟨k, hk, rfl⟩
      have := List.mem_filter.mp hk
      exact this.2
  | some d =>
    simp only [ListBucketResult.process_keys, hd]
    constructor
    · intro o ho
      rcases List.mem_append.mp ho with h | h
      · exact hc o h
      · have hkey : o.key ∈ ((groupRows r.pfx d rows []).1).map S3Object.key :=
          List.mem_map.mpr ⟨o, h, rfl⟩
        obtain ⟨s, hsp, -⟩ := groupRows_contents_keys r.pfx d [] hkey
        rw [stripPre_eq_append hsp]
        exact isPrefixOf_append_self _ _
    · intro cp hcpm
      rcases List.mem_append.mp hcpm with h | h
      · exact hcp cp h
      · exact groupRows_seen_pre r.pfx d rows [] (by simp) cp h

/-- Updating in place puts the fresh row where the old key was. -/
theorem find_map_update (key : List Char) (blob : List Nat) (h : List Char)
    (now : Int) : ∀ table : List DbRow,
    table.any (fun r => r.key == key) = true →
    List.find? (fun r => r.key == key)
      (table.map (fun r => if r.key == key then ⟨key, blob, now, h⟩ else r)) =
      some ⟨key, blob, now, h⟩ := by
  intro table
  induction table with
  | nil => intro hany; simp at hany
  | cons r rest ih =>
    intro hany
    cases hr : r.key == key with
    | true => simp [List.find?, hr]
    | false =>
      have hrest : rest.any (fun r => r.key == key) = true := by
        simpa [hr] using hany
      simpa [List.find?, hr] using ih hrest

/-- Appending the fresh row to a table without the key finds the row. -/
theorem find_append_new (key : List Char) (blob : List Nat) (h : List Char)
    (now : Int) : ∀ table : List DbRow,
    table.any (fun r => r.key == key) = false →
    List.find? (fun r => r.key == key)
      (table ++ [⟨key, blob, now, h⟩]) = some ⟨key, blob, now, h⟩ := by
  intro table
  induction table with
  | nil => intro _; simp [List.find?]
  | cons r rest ih =>
    intro hany
    cases hr : r.key == key with
    | true => exfalso; simp [hr] at hany
    | false =>
      have hrest : rest.any (fun r => r.key == key) = false := by
        simpa [hr] using hany
      simpa [List.find?, hr] using ih hrest

/-- Looking up the upserted key yields exactly the fresh row. -/
theorem lookupRow_upsert (table : List DbRow) (key : List Char)
    (blob : List Nat) (h : List Char) (now : Int) :
    lookupRow (upsert table key blob h now) key =
      some ⟨key, blob, now, h⟩ := by
  unfold upsert lookupRow
  cases hany : table.any (fun r => r.key == key) with
  | true => simpa using find_map_update key blob h now table hany
  | false => simpa using find_append_new key blob h now table hany

/-- Claim C2 (code-bug evidence): `to_xml` emits user-supplied text nodes
verbatim.  For a listing result holding the single key `a<b`, the
serialized output contains the raw `<Key>a<b</Key>` and contains no
`&lt;` escape anywhere, contradicting the required escaping of XML
reserved characters. -/
theorem c2_xml_escaping_missing :
    hasSubstr "&lt;".data
      ({ ListBucketResult.new ['b'] [] none with
         contents := [mkObject ⟨"a<b".data, 3, [], some ['0', '1']⟩]
       } : ListBucketResult).to_xml = false ∧
    hasSubstr "<Key>a<b</Key>".data
      ({ ListBucketResult.new ['b'] [] none with
         contents := [mkObject ⟨"a<b".data, 3, [], some ['0', '1']⟩]
       } : ListBucketResult).to_xml = true := by decide

/-- Claim C3: with a delimiter set, every fetched key whose stripped
suffix contains the delimiter contributes the grouping string (request
echo plus suffix up to and including the first delimiter occurrence) to
the common prefixes of `process_keys`; in particular, for stored keys
a/b, a/c, a/x/y, d with empty echo and delimiter `/`, the result has
contents exactly {d} and common prefixes exactly {a/}. -/
theorem c3_delimiter_grouping :
    (∀ (b p : List Char) (d : Char) (rows : List KeyRow) (row : KeyRow)
        (s : List Char) (i : Nat), row ∈ rows →
        stripPre p row.key = some s → str_find d s = some i →
        (p ++ s.take (i + 1)) ∈
          ((ListBucketResult.new b p (some d)).process_keys
            rows).common_prefixes) ∧
    (((ListBucketResult.new ['B'] [] (some '/')).process_keys
        [⟨"a/b".data, 0, [], none⟩, ⟨"a/c".data, 0, [], none⟩,
         ⟨"a/x/y".data, 0, [], none⟩, ⟨"d".data, 0, [], none⟩]).contents.map
          S3Object.key = ["d".data] ∧
     ((ListBucketResult.new ['B'] [] (some '/')).process_keys
        [⟨"a/b".data, 0, [], none⟩, ⟨"a/c".data, 0, [], none⟩,
         ⟨"a/x/y".data, 0, [], none⟩, ⟨"d".data, 0, [], none⟩]).common_prefixes
        = ["a/".data]) := by
  constructor
  · intro b p d rows row s i hmem hsp hf
    simp only [ListBucketResult.process_keys, ListBucketResult.new,
      List.nil_append]
    exact groupRows_mem_of_row p d hmem hsp hf []
  · exact ⟨by decide, by decide⟩

/-- Witness for C3 at a concrete one-row listing. -/
theorem c3_delimiter_grouping_witness :
    ([] ++ List.take (1 + 1) "x/y".data) ∈
      ((ListBucketResult.new ['B'] [] (some '/')).process_keys
        [⟨"x/y".data, 0, [], none⟩]).common_prefixes :=
  c3_delimiter_grouping.1 ['B'] [] '/' [⟨"x/y".data, 0, [], none⟩]
    ⟨"x/y".data, 0, [], none⟩ "x/y".data 1 (by decide) (by decide) (by decide)

/-- Claim C4: in every processed listing the common prefixes are
duplicate-free (each distinct grouping string reported once however many
keys share it), and a key whose stripped suffix contains the delimiter —
one that contributes a common prefix — never appears among the content
keys, so no key lands in both. -/
theorem c4_no_double_counting :
    (∀ (b p : List Char) (dopt : Option Char) (rows : List KeyRow),
      (((ListBucketResult.new b p dopt).process_keys
        rows).common_prefixes).Nodup) ∧
    (∀ (b p : List Char) (d : Char) (rows : List KeyRow) (k s : List Char)
        (i : Nat), stripPre p k = some s → str_find d s = some i →
      k ∉ (((ListBucketResult.new b p (some d)).process_keys
            rows).contents).map S3Object.key) := by
  constructor
  · intro b p dopt rows
    cases dopt with
    | none => simp [ListBucketResult.process_keys, ListBucketResult.new]
    | some d =>
      simp only [ListBucketResult.process_keys, ListBucketResult.new,
        List.nil_append]
      exact groupRows_nodup p d rows [] List.nodup_nil
  · intro b p d rows k s i hsp hf hk
    simp only [ListBucketResult.process_keys, ListBucketResult.new,
      List.nil_append] at hk
    obtain ⟨s', hsp', hf'⟩ := groupRows_contents_keys p d [] hk
    rw [hsp] at hsp'
    rw [← Option.some.inj hsp'] at hf'
    exact Option.noConfusion (hf.symm.trans hf')

/-- Witness for C4 at a concrete grouped key. -/
theorem c4_no_double_counting_witness :
    "a/b".data ∉ (((ListBucketResult.new ['B'] [] (some '/')).process_keys
        [⟨"a/b".data, 0, [], none⟩, ⟨"d".data, 0, [], none⟩]).contents).map
          S3Object.key :=
  c4_no_double_counting.2 ['B'] [] '/'
    [⟨"a/b".data, 0, [], none⟩, ⟨"d".data, 0, [], none⟩]
    "a/b".data "a/b".data 1 (by decide) (by decide)

/-- Claim C5: every content key and every common prefix of a listing
starts with the request echo — both for `process_keys` over arbitrary
fetched rows (so in particular whatever the unescaped LIKE pattern
returned, including echoes containing the wildcards `%` or `_`, the
in-memory pass re-filters) and for the complete v1 listing pipeline. -/
theorem c5_prefix_filtering :
    (∀ (b p : List Char) (dopt : Option Char) (rows : List KeyRow),
      (∀ o ∈ ((ListBucketResult.new b p dopt).process_keys rows).contents,
        p.isPrefixOf o.key = true) ∧
      (∀ cp ∈ ((ListBucketResult.new b p dopt).process_keys
          rows).common_prefixes, p.isPrefixOf cp = true)) ∧
    (∀ (fmtTime : Int → List Char) (allowed : List (List Char))
        (bucket p : List Char) (dopt : Option Char) (m : List Char)
        (mk : Int) (table : List DbRow) (r : ListBucketResult),
      list_objects fmtTime allowed bucket p dopt m mk table =
        ListResp.okL r →
      (∀ o ∈ r.contents, p.isPrefixOf o.key = true) ∧
      (∀ cp ∈ r.common_prefixes, p.isPrefixOf cp = true)) := by
  constructor
  · intro b p dopt rows
    exact process_keys_pre (ListBucketResult.new b p dopt) rows
      (by simp [ListBucketResult.new]) (by simp [ListBucketResult.new])
  · intro fmtTime allowed bucket p dopt m mk table r hok
    unfold list_objects at hok
    split at hok
    · cases hq : query_bucket_objects fmtTime table bucket p with
      | error e => rw [hq] at hok; cases hok
      | ok rows =>
        rw [hq] at hok
        simp only [ListResp.okL.injEq] at hok
        subst hok
        exact process_keys_pre _ rows
          (by simp [ListBucketResult.new, ListBucketResult.set_max_keys])
          (by simp [ListBucketResult.new, ListBucketResult.set_max_keys])
    · cases hok

/-- Witness for C5 at an echo containing the LIKE wildcard `%`. -/
theorem c5_prefix_filtering_witness :
    ['a', '%'].isPrefixOf (mkObject ⟨"a%b".data, 0, [], none⟩).key = true :=
  (c5_prefix_filtering.1 ['B'] ['a', '%'] none
      [⟨"a%b".data, 0, [], none⟩]).1
    (mkObject ⟨"a%b".data, 0, [], none⟩) (by decide)

/-- Claim C6 counterexample: the storage query has no ORDER BY, so the v1
listing returns content entries in table (rowid) order.  With the rows
for keys `b` then `a` stored in that order, the listing returns the keys
as `[b, a]`, which is not lexicographically ascending. -/
theorem c6_unsorted_listing :
    (contentsOf (list_objects (fun _ => []) [['b']] ['b'] [] none [] 1000
        [⟨['b'], [0], 0, ['h']⟩, ⟨['a'], [0], 0, ['h']⟩])).map S3Object.key
      = [['b'], ['a']] ∧
    ¬ List.Pairwise LexLeP [['b'], ['a']] := by
  exact ⟨by decide, by decide⟩

/-- Claim C6 (amended): the listing preserves the fetched row order — the
content keys form a sublist of the fetched keys — so the contents are
lexicographically ascending exactly when the storage returns the rows in
ascending order (which the ORDER-BY-less query does not enforce). -/
theorem c6_order_preservation :
    (∀ (b p : List Char) (dopt : Option Char) (rows : List KeyRow),
      List.Sublist
        ((((ListBucketResult.new b p dopt).process_keys
          rows).contents).map S3Object.key)
        (rows.map KeyRow.key)) ∧
    (∀ (b p : List Char) (dopt : Option Char) (rows : List KeyRow),
      List.Pairwise LexLeP (rows.map KeyRow.key) →
      List.Pairwise LexLeP
        ((((ListBucketResult.new b p dopt).process_keys
          rows).contents).map S3Object.key)) := by
  have hsub : ∀ (b p : List Char) (dopt : Option Char) (rows : List KeyRow),
      List.Sublist
        ((((ListBucketResult.new b p dopt).process_keys
          rows).contents).map S3Object.key)
        (rows.map KeyRow.key) := by
    intro b p dopt rows
    cases dopt with
    | none =>
      simp only [ListBucketResult.process_keys, ListBucketResult.new,
        List.nil_append, map_key_mkObject]
      exact (List.filter_sublist rows).map KeyRow.key
    | some d =>
      simp only [ListBucketResult.process_keys, ListBucketResult.new,
        List.nil_append]
      exact groupRows_contents_sublist p d rows []
  exact ⟨hsub, fun b p dopt rows hp => hp.sublist (hsub b p dopt rows)⟩

/-- Witness for C6 amended at a concrete sorted two-row fetch. -/
theorem c6_order_preservation_witness :
    List.Pairwise LexLeP
      ((((ListBucketResult.new ['B'] [] none).process_keys
          [⟨['a'], 0, [], none⟩, ⟨['b'], 0, [], none⟩]).contents).map
            S3Object.key) :=
  c6_order_preservation.2 ['B'] [] none
    [⟨['a'], 0, [], none⟩, ⟨['b'], 0, [], none⟩] (by decide)

/-- Claim C7: after a put of (key, payload) into a validated bucket, a get
of the key returns exactly the payload bytes, and the hash column stored
by the put (the value later quoted into the ETag) is the hex md5 digest of
the payload. -/
theorem c7_put_get_roundtrip (md5hex : List Nat → List Char)
    (allowed : List (List Char)) (bucket key : List Char) (body : List Nat)
    (table : List DbRow) (now : Int) (hmem : bucket ∈ allowed)
    (hsan : (sanitize_bucket_name bucket).isSome = true) :
    (upload_object md5hex allowed bucket key body table now).2.1 =
      HResp.okPut ∧
    (download_object allowed bucket key
        (upload_object md5hex allowed bucket key body table now).2.2).2 =
      HResp.okGet body ∧
    (lookupRow (upload_object md5hex allowed bucket key body table now).2.2
        key).map DbRow.md5 = some (md5hex body) := by
  obtain ⟨t, ht⟩ := Option.isSome_iff_exists.mp hsan
  refine ⟨?_, ?_, ?_⟩
  · simp [upload_object, hmem, ht]
  · simp [upload_object, download_object, hmem, ht, lookupRow_upsert]
  · simp [upload_object, hmem, ht, lookupRow_upsert]

/-- Witness for C7 at a concrete put/get pair. -/
theorem c7_put_get_roundtrip_witness :
    (upload_object (fun _ => ['h']) [['b']] ['b'] ['k'] [1, 2] [] 0).2.1 =
      HResp.okPut ∧
    (download_object [['b']] ['b'] ['k']
        (upload_object (fun _ => ['h']) [['b']] ['b'] ['k'] [1, 2] [] 0).2.2).2 =
      HResp.okGet [1, 2] ∧
    (lookupRow (upload_object (fun _ => ['h']) [['b']] ['b'] ['k'] [1, 2] [] 0).2.2
        ['k']).map DbRow.md5 = some ['h'] :=
  c7_put_get_roundtrip (fun _ => ['h']) [['b']] ['b'] ['k'] [1, 2] [] 0
    (by decide) (by decide)

/-- Claim C8 counterexample: the delete handler of the actix iteration
(src/src/main.rs) answers the deletion of an absent key with a NoSuchKey
404 error response, not success. -/
theorem c8_delete_absent_notfound :
    MainRs.delete_object [['b']] ['b'] ['k'] [] =
      (HResp.errResp 404 "NoSuchKey".data, []) := by decide

/-- Claim C8 (amended): for the axum handler (src/src/handlers/object.rs)
deleting an absent key succeeds with 204 and deleting twice in a row is
safe — the second delete also answers 204; the older actix handler in
src/src/main.rs instead answers NoSuchKey 404 when no row was deleted. -/
theorem c8_axum_delete_idempotent (allowed : List (List Char))
    (bucket key : List Char) (table : List DbRow) (hmem : bucket ∈ allowed)
    (hsan : (sanitize_bucket_name bucket).isSome = true) :
    (delete_object allowed bucket key table).2.1 = HResp.okDeleted ∧
    (delete_object allowed bucket key
        (delete_object allowed bucket key table).2.2).2.1 =
      HResp.okDeleted := by
  obtain ⟨t, ht⟩ := Option.isSome_iff_exists.mp hsan
  constructor <;> simp [delete_object, hmem, ht]

/-- Witness for C8 amended: double delete of an absent key. -/
theorem c8_axum_delete_idempotent_witness :
    (delete_object [['b']] ['b'] ['k'] []).2.1 = HResp.okDeleted ∧
    (delete_object [['b']] ['b'] ['k']
        (delete_object [['b']] ['b'] ['k'] []).2.2).2.1 = HResp.okDeleted :=
  c8_axum_delete_idempotent [['b']] ['b'] ['k'] [] (by decide) (by decide)

/-- Claim C9 counterexample: a request naming the bucket `a.b` (an invalid
character) against an allow-list not containing it is answered with
AccessDenied 403 — not InvalidBucketName 400 — because the allow-list
check runs first. -/
theorem c9_invalid_name_access_denied :
    upload_object (fun _ => []) ["good".data] "a.b".data ['k'] [] [] 0 =
      ([], HResp.errResp 403 "AccessDenied".data, []) ∧
    (403 : Nat) ≠ 400 := by
  exact ⟨by decide, by decide⟩

/-- Claim C9 (amended): a bucket name outside the allow-list is rejected
with AccessDenied 403 before any storage effect; a name inside the
allow-list that fails sanitization is rejected with InvalidBucketName 400,
but only after a pooled connection was acquired (and with no statement
executed). -/
theorem c9_validation_order (md5hex : List Nat → List Char)
    (allowed : List (List Char)) (bucket key : List Char) (body : List Nat)
    (table : List DbRow) (now : Int) :
    (bucket ∉ allowed →
      upload_object md5hex allowed bucket key body table now =
        ([], HResp.errResp 403 "AccessDenied".data, table)) ∧
    (bucket ∈ allowed → sanitize_bucket_name bucket = none →
      upload_object md5hex allowed bucket key body table now =
        ([Effect.acquireConn],
          HResp.errResp 400 "InvalidBucketName".data, table)) := by
  constructor
  · intro h
    simp [upload_object, h]
  · intro h hs
    simp [upload_object, h, hs]

/-- Witness for C9 amended: an invalid-named bucket placed in the
allow-list reaches connection acquisition before the 400 answer. -/
theorem c9_validation_order_witness :
    upload_object (fun _ => []) ["a.b".data] "a.b".data ['k'] [] [] 0 =
      ([Effect.acquireConn], HResp.errResp 400 "InvalidBucketName".data,
        []) :=
  (c9_validation_order (fun _ => []) ["a.b".data] "a.b".data ['k'] [] [] 0).2
    (by decide) (by decide)

/-- Claim C10: the v1 listing ignores pagination inputs — two requests
identical except for marker and max-keys produce identical contents and
common prefixes, and the truncation flag is always false. -/
theorem c10_pagination_noop (fmtTime : Int → List Char)
    (allowed : List (List Char)) (bucket p : List Char) (dopt : Option Char)
    (m₁ m₂ : List Char) (k₁ k₂ : Int) (table : List DbRow) :
    contentsOf (list_objects fmtTime allowed bucket p dopt m₁ k₁ table) =
      contentsOf (list_objects fmtTime allowed bucket p dopt m₂ k₂ table) ∧
    cprefixesOf (list_objects fmtTime allowed bucket p dopt m₁ k₁ table) =
      cprefixesOf (list_objects fmtTime allowed bucket p dopt m₂ k₂ table) ∧
    truncatedOf (list_objects fmtTime allowed bucket p dopt m₁ k₁ table) =
      false := by
  unfold list_objects
  by_cases h : bucket ∈ allowed
  · simp only [if_pos h]
    cases hq : query_bucket_objects fmtTime table bucket p with
    | error e => simp [contentsOf, cprefixesOf, truncatedOf]
    | ok rows =>
      cases dopt with
      | none =>
        simp [contentsOf, cprefixesOf, truncatedOf,
          ListBucketResult.process_keys, ListBucketResult.new,
          ListBucketResult.set_max_keys]
      | some d =>
        simp [contentsOf, cprefixesOf, truncatedOf,
          ListBucketResult.process_keys, ListBucketResult.new,
          ListBucketResult.set_max_keys]
  · simp [if_neg h, contentsOf, cprefixesOf, truncatedOf]
